import Mathlib

/-!
Verification of the LQR balancing-controller notebook (`python/LQR.ipynb`).

The physics engine (MuJoCo) is an external oracle: its inverse dynamics,
Jacobians, finite-difference linearization, manifold difference and stepping
are modelled as abstract parameters.  The notebook's own numerics — the trim
scan, the pseudo-inverse control setpoint, the cost matrices, the gain
formula, the control law and the disturbance pipeline — are embedded as
executable definitions over `ℚ` and verified below.
-/

set_option maxRecDepth 8000

namespace LQR

open Matrix

/-! ## Trim scan (notebook cell: `height_offsets`, `vertical_forces`, `best_offset`)

The notebook evaluates `np.linspace(-0.001, 0.001, 2001)` candidate height
offsets, obtains through `mj_inverse` (under the zero-acceleration assertion
`data.qacc = 0`) the inverse-dynamics force vector at each offset, records its
component 2, and picks `height_offsets[np.argmin(np.abs(vertical_forces))]`.
The inverse dynamics is the oracle, modelled as a parameter
`invDyn : ℚ → ℕ → ℚ` taking the height offset to the generalized force. -/

/-- `np.linspace (-0.001) 0.001 2001`: step `0.002 / 2000 = 1e-6`. -/
def height_offsets (i : Fin 2001) : ℚ := -1/1000 + (i : ℕ) * (1/1000000)

/-- Component 2 of the inverse-dynamics force at each scanned offset. -/
def vertical_forces (invDyn : ℚ → ℕ → ℚ) (i : Fin 2001) : ℚ :=
  invDyn (height_offsets i) 2

/-- Fold kernel of `np.argmin(np.abs(v))`: scan indices left to right and
replace the running best index only on a strict decrease of `|v|`, which
keeps the first occurrence of the minimum. -/
def argminAbsAux (v : ℕ → ℚ) : List ℕ → ℕ → ℕ
  | [], best => best
  | i :: rest, best => argminAbsAux v rest (if |v i| < |v best| then i else best)

/-- `np.argmin(np.abs(v))` over an array of length `n+1`. -/
def argminAbs (v : ℕ → ℚ) (n : ℕ) : ℕ :=
  argminAbsAux v (List.range (n + 1)) 0

/-- The scanned force values as a `ℕ`-indexed array (indices past the end wrap,
which never happens in the fold below since `argminAbs` only visits `0..2000`). -/
def vArr (invDyn : ℚ → ℕ → ℚ) (i : ℕ) : ℚ :=
  vertical_forces invDyn ⟨i % 2001, Nat.mod_lt _ (by norm_num)⟩

/-- The scan index selected by the notebook. -/
def trimIdx (invDyn : ℚ → ℕ → ℚ) : ℕ :=
  argminAbs (vArr invDyn) 2000

/-- `best_offset = height_offsets[idx]` as in the notebook. -/
def best_offset (invDyn : ℚ → ℕ → ℚ) : ℚ :=
  height_offsets ⟨trimIdx invDyn % 2001, Nat.mod_lt _ (by norm_num)⟩

lemma argminAbsAux_le_start (v : ℕ → ℚ) (l : List ℕ) (b : ℕ) :
    |v (argminAbsAux v l b)| ≤ |v b| := by
  induction l generalizing b with
  | nil => exact le_refl _
  | cons i rest ih =>
      simp only [argminAbsAux]
      by_cases h : |v i| < |v b|
      · simp only [h, if_pos]
        exact le_trans (ih i) (le_of_lt h)
      · simp only [h, if_neg, not_false_iff]
        exact ih b

lemma argminAbsAux_le_mem (v : ℕ → ℚ) (l : List ℕ) (b : ℕ) (j : ℕ) (hj : j ∈ l) :
    |v (argminAbsAux v l b)| ≤ |v j| := by
  induction l generalizing b with
  | nil => cases hj
  | cons i rest ih =>
      simp only [argminAbsAux]
      rcases List.mem_cons.mp hj with hji | hjrest
      · subst hji
        by_cases h : |v j| < |v b|
        · simp only [h, if_pos]
          exact argminAbsAux_le_start v rest j
        · simp only [h, if_neg, not_false_iff]
          exact le_trans (argminAbsAux_le_start v rest b) (le_of_not_lt h)
      · by_cases h : |v i| < |v b|
        · simp only [h, if_pos]
          exact ih i hjrest
        · simp only [h, if_neg, not_false_iff]
          exact ih b hjrest

lemma argminAbs_le (v : ℕ → ℚ) (n : ℕ) (j : ℕ) (hj : j ≤ n) :
    |v (argminAbs v n)| ≤ |v j| :=
  argminAbsAux_le_mem v _ 0 j (List.mem_range.mpr (Nat.lt_succ_of_le hj))

lemma argminAbsAux_mem_or_start (v : ℕ → ℚ) (l : List ℕ) (b : ℕ) :
    argminAbsAux v l b ∈ l ∨ argminAbsAux v l b = b := by
  induction l generalizing b with
  | nil => exact Or.inr rfl
  | cons i rest ih =>
      simp only [argminAbsAux]
      by_cases h : |v i| < |v b|
      · simp only [h, if_pos]
        rcases ih i with hm | he
        · exact Or.inl (List.mem_cons_of_mem _ hm)
        · exact Or.inl (by rw [he]; exact List.mem_cons_self _ _)
      · simp only [h, if_neg, not_false_iff]
        rcases ih b with hm | he
        · exact Or.inl (List.mem_cons_of_mem _ hm)
        · exact Or.inr he

lemma argminAbs_le_bound (v : ℕ → ℚ) (n : ℕ) : argminAbs v n ≤ n := by
  rcases argminAbsAux_mem_or_start v (List.range (n + 1)) 0 with hm | he
  · exact Nat.lt_succ_iff.mp (List.mem_range.mp hm)
  · simp [argminAbs, he]

lemma trimIdx_lt (invDyn : ℚ → ℕ → ℚ) : trimIdx invDyn < 2001 :=
  Nat.lt_succ_of_le (argminAbs_le_bound _ 2000)

lemma vArr_fin (invDyn : ℚ → ℕ → ℚ) (j : Fin 2001) :
    vArr invDyn (j : ℕ) = vertical_forces invDyn j := by
  unfold vArr
  congr 1
  exact Fin.ext (Nat.mod_eq_of_lt j.isLt)

lemma height_offsets_mk (a : ℕ) (h : a < 2001) :
    height_offsets ⟨a, h⟩ = -1/1000 + (a : ℚ) * (1/1000000) := rfl

lemma best_offset_eq (invDyn : ℚ → ℕ → ℚ) :
    best_offset invDyn = height_offsets ⟨trimIdx invDyn, trimIdx_lt invDyn⟩ := by
  unfold best_offset
  rw [height_offsets_mk, height_offsets_mk, Nat.mod_eq_of_lt (trimIdx_lt invDyn)]

/-- **C1.** The trim scan evaluates the inverse-dynamics vertical force
(component 2 of the generalized force, under the zero-acceleration assertion)
at 2001 evenly spaced offsets covering `[-1mm, +1mm]` in `1e-6` steps, and the
offset selected for the trim position is the scanned offset whose force has
minimal absolute value: for every scanned index `j`,
`|f(δ*)[2]| ≤ |f(δ_j)[2]|`. -/
theorem trim_scan_minimizes_abs_vertical_force (invDyn : ℚ → ℕ → ℚ) (j : Fin 2001) :
    height_offsets ⟨0, by norm_num⟩ = -(1/1000) ∧
    height_offsets ⟨2000, by norm_num⟩ = 1/1000 ∧
    (∀ i : Fin 2000, height_offsets i.succ - height_offsets i.castSucc = 1/1000000) ∧
    best_offset invDyn = height_offsets ⟨trimIdx invDyn, trimIdx_lt invDyn⟩ ∧
    |vertical_forces invDyn ⟨trimIdx invDyn, trimIdx_lt invDyn⟩| ≤ |vertical_forces invDyn j| := by
  refine ⟨?_, ?_, ?_, best_offset_eq invDyn, ?_⟩
  · norm_num [height_offsets]
  · norm_num [height_offsets]
  · intro i
    simp only [height_offsets, Fin.val_succ, Fin.coe_castSucc]
    push_cast
    ring
  · have h := argminAbs_le (vArr invDyn) 2000 (j : ℕ) (Nat.lt_succ_iff.mp j.isLt)
    have h1 : vArr invDyn (argminAbs (vArr invDyn) 2000)
        = vertical_forces invDyn ⟨trimIdx invDyn, trimIdx_lt invDyn⟩ := by
      have := vArr_fin invDyn ⟨trimIdx invDyn, trimIdx_lt invDyn⟩
      simpa [trimIdx] using this
    have h2 := vArr_fin invDyn j
    rw [h1, h2] at h
    exact h

/-! ### C2: behaviour when the scan minimizer is at an interval boundary

The spec asks for a reported precondition failure.  The notebook has no such
check: `best_offset = height_offsets[np.argmin(np.abs(vertical_forces))]` is a
total computation that returns the boundary offset itself.  `invDynEdge` is an
inverse-dynamics oracle whose vertical force grows strictly with the offset,
so the minimizer is the first scanned offset `-1mm`. -/

/-- Oracle with vertical force `offset + 1/1000 + 1`, positive and increasing
on the scan, hence minimized at the left boundary. -/
def invDynEdge : ℚ → ℕ → ℚ := fun offset _ => offset + 1/1000 + 1

lemma argminAbsAux_eq_start (v : ℕ → ℚ) (l : List ℕ) (b : ℕ)
    (h : ∀ i ∈ l, ¬ |v i| < |v b|) : argminAbsAux v l b = b := by
  induction l with
  | nil => rfl
  | cons i rest ih =>
      simp only [argminAbsAux, h i (List.mem_cons_self _ _), if_neg, not_false_iff]
      exact ih fun x hx => h x (List.mem_cons_of_mem _ hx)

lemma vArr_invDynEdge (i : ℕ) : vArr invDynEdge i = (i % 2001 : ℕ) * (1/1000000) + 1 := by
  simp only [vArr, vertical_forces, invDynEdge, height_offsets]
  ring

lemma trimIdx_invDynEdge : trimIdx invDynEdge = 0 := by
  unfold trimIdx argminAbs
  apply argminAbsAux_eq_start
  intro i _
  rw [vArr_invDynEdge, vArr_invDynEdge]
  have h0 : (0:ℕ) % 2001 = 0 := rfl
  rw [h0]
  push_cast
  have hnn : (0:ℚ) ≤ (i % 2001 : ℕ) * (1/1000000) := by positivity
  rw [abs_of_nonneg (by linarith), abs_of_nonneg (by norm_num)]
  intro hlt
  norm_num at hlt
  linarith

/-- **C2, counterexample.** On the oracle `invDynEdge` the scan minimizer is
the boundary index 0, yet the trim solver returns the boundary offset `-1mm`
itself: `best_offset` is a total `ℚ`-valued computation with no failure
channel, so no precondition failure is reported. -/
theorem trim_boundary_counterexample :
    trimIdx invDynEdge = 0 ∧
    best_offset invDynEdge = height_offsets ⟨0, by norm_num⟩ ∧
    best_offset invDynEdge = -(1/1000) := by
  have h := trimIdx_invDynEdge
  have hb := best_offset_eq invDynEdge
  refine ⟨h, ?_, ?_⟩
  · rw [hb, height_offsets_mk, height_offsets_mk, h]
  · rw [hb, height_offsets_mk, h]
    norm_num

/-- **C2, amended.** When the 1-D scan minimizer lies at an interval boundary
(first or last scanned index), the trim solver silently returns that boundary
offset as the trim offset; no precondition failure is reported. -/
theorem trim_boundary_silent (invDyn : ℚ → ℕ → ℚ)
    (_h : trimIdx invDyn = 0 ∨ trimIdx invDyn = 2000) :
    best_offset invDyn = height_offsets ⟨trimIdx invDyn, trimIdx_lt invDyn⟩ :=
  best_offset_eq invDyn

/-- Witness for the amended C2 at the concrete boundary-minimizing oracle. -/
theorem trim_boundary_silent_witness :
    best_offset invDynEdge = height_offsets ⟨trimIdx invDynEdge, trimIdx_lt invDynEdge⟩ :=
  trim_boundary_silent invDynEdge (Or.inl trimIdx_invDynEdge)

/-! ## Control setpoint (notebook cell: `ctrl0`)

The notebook densifies the sparse `nu × nv` actuator moment-arm matrix with
`mju_sparse2dense`, then computes
`ctrl0 = (np.atleast_2d(qfrc0) @ np.linalg.pinv(actuator_moment)).flatten()`.
`np.linalg.pinv` is an external library routine; its output (the `nv × nu`
Moore-Penrose pseudo-inverse of the dense moment matrix) is modelled as the
matrix parameter `pinvMoment`. -/

/-- `np.atleast_2d(qfrc0)`: the residual force `f0` as a `1 × nv` row matrix. -/
def qfrc0Row {nv : ℕ} (qfrc0 : Fin nv → ℚ) : Matrix (Fin 1) (Fin nv) ℚ :=
  Matrix.of fun _ i => qfrc0 i

/-- `np.atleast_2d(qfrc0) @ pinv(actuator_moment)`, a `1 × nu` row matrix. -/
def ctrl0Row {nv nu : ℕ} (qfrc0 : Fin nv → ℚ)
    (pinvMoment : Matrix (Fin nv) (Fin nu) ℚ) : Matrix (Fin 1) (Fin nu) ℚ :=
  qfrc0Row qfrc0 * pinvMoment

/-- `ctrl0 = (... ).flatten()`: the control setpoint as an `nu`-vector. -/
def ctrl0 {nv nu : ℕ} (qfrc0 : Fin nv → ℚ)
    (pinvMoment : Matrix (Fin nv) (Fin nu) ℚ) : Fin nu → ℚ :=
  fun j => ctrl0Row qfrc0 pinvMoment 0 j

/-- **C3.** The row-vector formulation `f0ᵀ @ pinv(moment)`, flattened, equals
the shape-consistent column form `pinv(moment)ᵀ · f0`: the notebook's control
setpoint is exactly the vector the spec describes. -/
theorem ctrl0_eq_pinv_transpose_mulVec {nv nu : ℕ} (qfrc0 : Fin nv → ℚ)
    (pinvMoment : Matrix (Fin nv) (Fin nu) ℚ) :
    ctrl0 qfrc0 pinvMoment = Matrix.mulVec pinvMomentᵀ qfrc0 := by
  funext j
  simp only [ctrl0, ctrl0Row, qfrc0Row, Matrix.mul_apply, Matrix.mulVec,
    Matrix.dotProduct, Matrix.transpose_apply, Matrix.of_apply]
  exact Finset.sum_congr rfl fun i _ => mul_comm _ _

/-! ## Cost matrices (notebook cells: `Qbalance`, `Qjoint`, `Qpos`, `Q`)

The Jacobians `jac_com` (subtree centre of mass of the torso) and `jac_foot`
(left-foot body) are produced by the oracle (`mj_jacSubtreeCom`,
`mj_jacBodyCom`) and are modelled as `3 × nv` matrix parameters.  The set
`balance_dofs = abdomen_dofs + left_leg_dofs` is derived from joint-name
policy; it is modelled as a `Finset (Fin nv)` parameter. -/

/-- `Qbalance = jac_diff.T @ jac_diff` with `jac_diff = jac_com - jac_foot`. -/
def Qbalance {nv : ℕ} (jac_com jac_foot : Matrix (Fin 3) (Fin nv) ℚ) :
    Matrix (Fin nv) (Fin nv) ℚ :=
  (jac_com - jac_foot)ᵀ * (jac_com - jac_foot)

/-- Cost coefficient for the balancing term. -/
def BALANCE_COST : ℚ := 1000

/-- Cost coefficient for joints required for balancing. -/
def BALANCE_JOINT_COST : ℚ := 3

/-- Cost coefficient for the remaining joints (`.3` in the notebook). -/
def OTHER_JOINT_COST : ℚ := 3/10

/-- Diagonal of `Qjoint` after the three in-place fancy-indexed updates:
start from `np.eye(nv)`, multiply the root slots (`range(6)`) by 0, the
`balance_dofs` slots by `BALANCE_JOINT_COST`, and the remaining body slots
(`np.setdiff1d(range(6, nv), balance_dofs)`) by `OTHER_JOINT_COST`.  Each
update multiplies the slots it addresses, so the final entry is the product
of the factors whose slot sets contain `i`. -/
def QjointDiag (nv : ℕ) (balance_dofs : Finset (Fin nv)) (i : Fin nv) : ℚ :=
  (if (i : ℕ) < 6 then (0:ℚ) else 1) *
    (if i ∈ balance_dofs then BALANCE_JOINT_COST else 1) *
    (if 6 ≤ (i : ℕ) ∧ i ∉ balance_dofs then OTHER_JOINT_COST else 1)

/-- The joint-regularization matrix: the fancy-indexed updates only touch
diagonal slots, and `np.eye` is zero off the diagonal. -/
def Qjoint (nv : ℕ) (balance_dofs : Finset (Fin nv)) : Matrix (Fin nv) (Fin nv) ℚ :=
  Matrix.diagonal (QjointDiag nv balance_dofs)

/-- `Qpos = BALANCE_COST * Qbalance + Qjoint`. -/
def Qpos {nv : ℕ} (jac_com jac_foot : Matrix (Fin 3) (Fin nv) ℚ)
    (balance_dofs : Finset (Fin nv)) : Matrix (Fin nv) (Fin nv) ℚ :=
  BALANCE_COST • Qbalance jac_com jac_foot + Qjoint nv balance_dofs

/-- `Q = np.block([[Qpos, zeros(nv,nv)], [zeros(nv, 2nv)]])`: the `2nv × 2nv`
state-cost matrix, indexed by `Fin nv ⊕ Fin nv` (position tangent ⊕ velocity). -/
def Q {nv : ℕ} (jac_com jac_foot : Matrix (Fin 3) (Fin nv) ℚ)
    (balance_dofs : Finset (Fin nv)) :
    Matrix (Fin nv ⊕ Fin nv) (Fin nv ⊕ Fin nv) ℚ :=
  Matrix.fromBlocks (Qpos jac_com jac_foot balance_dofs) 0 0 0

lemma QjointDiag_nonneg (nv : ℕ) (balance_dofs : Finset (Fin nv)) (i : Fin nv) :
    0 ≤ QjointDiag nv balance_dofs i := by
  unfold QjointDiag BALANCE_JOINT_COST OTHER_JOINT_COST
  split_ifs <;> norm_num

lemma dotProduct_self_nonneg' {n : ℕ} (v : Fin n → ℚ) : 0 ≤ Matrix.dotProduct v v :=
  Finset.sum_nonneg fun i _ => mul_self_nonneg (v i)

lemma dotProduct_Qbalance_nonneg {nv : ℕ} (jac_com jac_foot : Matrix (Fin 3) (Fin nv) ℚ)
    (v : Fin nv → ℚ) :
    0 ≤ Matrix.dotProduct v ((Qbalance jac_com jac_foot).mulVec v) := by
  unfold Qbalance
  rw [← Matrix.mulVec_mulVec, Matrix.dotProduct_mulVec, Matrix.vecMul_transpose]
  exact dotProduct_self_nonneg' _

lemma dotProduct_Qjoint_nonneg {nv : ℕ} (balance_dofs : Finset (Fin nv))
    (v : Fin nv → ℚ) :
    0 ≤ Matrix.dotProduct v ((Qjoint nv balance_dofs).mulVec v) := by
  unfold Matrix.dotProduct
  refine Finset.sum_nonneg fun i _ => ?_
  rw [Qjoint, Matrix.mulVec_diagonal]
  have h := QjointDiag_nonneg nv balance_dofs i
  nlinarith [mul_self_nonneg (v i)]

lemma Qpos_transpose {nv : ℕ} (jac_com jac_foot : Matrix (Fin 3) (Fin nv) ℚ)
    (balance_dofs : Finset (Fin nv)) :
    (Qpos jac_com jac_foot balance_dofs)ᵀ = Qpos jac_com jac_foot balance_dofs := by
  unfold Qpos Qbalance Qjoint
  rw [Matrix.transpose_add, Matrix.transpose_smul, Matrix.transpose_mul,
    Matrix.transpose_transpose, Matrix.diagonal_transpose]

lemma dotProduct_Qpos_nonneg {nv : ℕ} (jac_com jac_foot : Matrix (Fin 3) (Fin nv) ℚ)
    (balance_dofs : Finset (Fin nv)) (v : Fin nv → ℚ) :
    0 ≤ Matrix.dotProduct v ((Qpos jac_com jac_foot balance_dofs).mulVec v) := by
  unfold Qpos
  rw [Matrix.add_mulVec, Matrix.dotProduct_add, Matrix.smul_mulVec_assoc,
    Matrix.dotProduct_smul]
  have h1 := dotProduct_Qbalance_nonneg jac_com jac_foot v
  have h2 := dotProduct_Qjoint_nonneg balance_dofs v
  have hB : (0:ℚ) ≤ BALANCE_COST := by norm_num [BALANCE_COST]
  have := mul_nonneg hB h1
  simpa [smul_eq_mul] using add_nonneg this h2

/-- **C4.** The state-cost matrix `Q` is `2nv × 2nv` and block-diagonal: its
position-tangent block is `BALANCE_COST * (J_com - J_support)^T (J_com -
J_support) + Qjoint`, every entry touching the velocity block is zero, and
`Q` is symmetric positive semi-definite. -/
theorem Q_block_structure_psd {nv : ℕ} (jac_com jac_foot : Matrix (Fin 3) (Fin nv) ℚ)
    (balance_dofs : Finset (Fin nv)) :
    Fintype.card (Fin nv ⊕ Fin nv) = 2 * nv ∧
    (∀ i j, Q jac_com jac_foot balance_dofs (Sum.inl i) (Sum.inl j) =
      (BALANCE_COST • Qbalance jac_com jac_foot + Qjoint nv balance_dofs) i j) ∧
    (∀ i j, Q jac_com jac_foot balance_dofs (Sum.inl i) (Sum.inr j) = 0) ∧
    (∀ i j, Q jac_com jac_foot balance_dofs (Sum.inr i) (Sum.inl j) = 0) ∧
    (∀ i j, Q jac_com jac_foot balance_dofs (Sum.inr i) (Sum.inr j) = 0) ∧
    (Q jac_com jac_foot balance_dofs)ᵀ = Q jac_com jac_foot balance_dofs ∧
    ∀ x : Fin nv ⊕ Fin nv → ℚ,
      0 ≤ Matrix.dotProduct x ((Q jac_com jac_foot balance_dofs).mulVec x) := by
  refine ⟨?_, fun i j => rfl, fun i j => rfl, fun i j => rfl, fun i j => rfl, ?_, ?_⟩
  · simp [Fintype.card_sum, two_mul]
  · unfold Q
    rw [Matrix.fromBlocks_transpose, Qpos_transpose]
    simp
  · intro x
    have hx : x = Sum.elim (fun i => x (Sum.inl i)) (fun i => x (Sum.inr i)) := by
      funext i; cases i <;> rfl
    rw [hx]
    unfold Q
    rw [Matrix.fromBlocks_mulVec]
    have hsum : ∀ (u v : Fin nv → ℚ) (a b : Fin nv → ℚ),
        Matrix.dotProduct (Sum.elim u v) (Sum.elim a b) =
          Matrix.dotProduct u a + Matrix.dotProduct v b := by
      intro u v a b
      simp [Matrix.dotProduct, Fintype.sum_sum_type]
    rw [hsum]
    simp only [Matrix.zero_mulVec, add_zero, Matrix.dotProduct_zero]
    simpa using dotProduct_Qpos_nonneg jac_com jac_foot balance_dofs
      (fun i => x (Sum.inl i))

/-- **C5.** `Qjoint` is diagonal; its restriction to the root free joint's
six degrees of freedom is exactly zero; balance-critical degrees of freedom
(which by the naming convention never lie in the root group) get weight
`BALANCE_JOINT_COST`, and all remaining degrees of freedom get weight
`OTHER_JOINT_COST`. -/
theorem Qjoint_weights {nv : ℕ} (balance_dofs : Finset (Fin nv))
    (hbal : ∀ i ∈ balance_dofs, 6 ≤ (i : ℕ)) (i j : Fin nv) :
    (i ≠ j → Qjoint nv balance_dofs i j = 0) ∧
    ((i : ℕ) < 6 → (j : ℕ) < 6 → Qjoint nv balance_dofs i j = 0) ∧
    (i ∈ balance_dofs → Qjoint nv balance_dofs i i = BALANCE_JOINT_COST) ∧
    (6 ≤ (i : ℕ) → i ∉ balance_dofs → Qjoint nv balance_dofs i i = OTHER_JOINT_COST) := by
  refine ⟨fun hne => Matrix.diagonal_apply_ne _ hne, ?_, ?_, ?_⟩
  · intro hi hj
    rcases eq_or_ne i j with heq | hne
    · subst heq
      rw [Qjoint, Matrix.diagonal_apply_eq]
      unfold QjointDiag
      rw [if_pos hi]
      ring
    · exact Matrix.diagonal_apply_ne _ hne
  · intro hmem
    have h6 : ¬ (i : ℕ) < 6 := not_lt.mpr (hbal i hmem)
    have hno : ¬ (6 ≤ (i : ℕ) ∧ i ∉ balance_dofs) := fun hc => hc.2 hmem
    rw [Qjoint, Matrix.diagonal_apply_eq]
    unfold QjointDiag
    rw [if_neg h6, if_pos hmem, if_neg hno]
    ring
  · intro h6 hmem
    have hlt : ¬ (i : ℕ) < 6 := not_lt.mpr h6
    rw [Qjoint, Matrix.diagonal_apply_eq]
    unfold QjointDiag
    rw [if_neg hlt, if_neg hmem, if_pos ⟨h6, hmem⟩]
    ring

/-- The humanoid's balance set in a small stand-in dimension, used to witness
the C5 hypothesis concretely. -/
def bal8 : Finset (Fin 8) := {(6 : Fin 8)}

/-- Witness for C5 at `nv = 8` with balance set `{6}`: the balance slot gets
weight `BALANCE_JOINT_COST`. -/
theorem Qjoint_weights_witness :
    Qjoint 8 bal8 (6 : Fin 8) (6 : Fin 8) = BALANCE_JOINT_COST :=
  (Qjoint_weights bal8 (by decide) (6 : Fin 8) (0 : Fin 8)).2.2.1 (by decide)

/-! ## Riccati gain synthesis (notebook cells: `R`, `P`, `K`)

`P = scipy.linalg.solve_discrete_are(A, B, Q, R)` calls an external solver;
its output is available only through its contract.  `K` is then computed in
the notebook as `np.linalg.inv(R + B.T @ P @ B) @ B.T @ P @ A`.  `np.linalg.inv`
is the exact matrix inverse; over `ℚ` it is the adjugate divided by the
determinant. -/

/-- `R = np.eye(nu)`: the control-cost matrix. -/
def R (nu : ℕ) : Matrix (Fin nu) (Fin nu) ℚ := 1

/-- Exact matrix inverse (`np.linalg.inv`): adjugate over determinant. -/
def matInv {n : ℕ} (M : Matrix (Fin n) (Fin n) ℚ) : Matrix (Fin n) (Fin n) ℚ :=
  (M.det)⁻¹ • M.adjugate

lemma matInv_eq_inv {n : ℕ} (M : Matrix (Fin n) (Fin n) ℚ) : matInv M = M⁻¹ := by
  rw [matInv, Matrix.inv_def, Ring.inverse_eq_inv']

lemma mul_matInv_self {n : ℕ} (M : Matrix (Fin n) (Fin n) ℚ) (h : M.det ≠ 0) :
    M * matInv M = 1 := by
  rw [matInv_eq_inv]
  exact Matrix.mul_nonsing_inv M (isUnit_iff_ne_zero.mpr h)

/-- `K = np.linalg.inv(R + B.T @ P @ B) @ B.T @ P @ A` (left-associated as
numpy evaluates the chain of `@`). -/
def gainK {n m : ℕ} (A : Matrix (Fin n) (Fin n) ℚ) (B : Matrix (Fin n) (Fin m) ℚ)
    (P : Matrix (Fin n) (Fin n) ℚ) (Rm : Matrix (Fin m) (Fin m) ℚ) :
    Matrix (Fin m) (Fin n) ℚ :=
  matInv (Rm + Bᵀ * P * B) * Bᵀ * P * A

/-- Modelled from the spec: `scipy.linalg.solve_discrete_are` is an external
solver, absent from the source; per the spec its return value is "the unique
stabilizing symmetric positive-semi-definite solution `P` to the discrete
algebraic Riccati equation `P = Q + AᵗPA − AᵗPB(R + BᵗPB)⁻¹BᵗPA`".  The parts
of the contract used below: symmetry and the DARE fixed-point equation. -/
def IsDareSolution {n m : ℕ} (A : Matrix (Fin n) (Fin n) ℚ) (B : Matrix (Fin n) (Fin m) ℚ)
    (Qm : Matrix (Fin n) (Fin n) ℚ) (Rm : Matrix (Fin m) (Fin m) ℚ)
    (P : Matrix (Fin n) (Fin n) ℚ) : Prop :=
  Pᵀ = P ∧
  P = Qm + Aᵀ * P * A - Aᵀ * P * B * matInv (Rm + Bᵀ * P * B) * (Bᵀ * P * A)

/-- **C6.** With `Q` symmetric positive semi-definite, `R` symmetric positive
definite (hence `R + BᵀPB` invertible at the solution), and `P` the external
solver's output, `P` satisfies the discrete algebraic Riccati equation
written with the notebook's gain, and the returned gain equals
`(R + BᵀPB)⁻¹ BᵀPA` for that `P`. -/
theorem riccati_gain_equations {n m : ℕ}
    (A : Matrix (Fin n) (Fin n) ℚ) (B : Matrix (Fin n) (Fin m) ℚ)
    (Qm : Matrix (Fin n) (Fin n) ℚ) (Rm : Matrix (Fin m) (Fin m) ℚ)
    (P : Matrix (Fin n) (Fin n) ℚ)
    (_hQsym : Qmᵀ = Qm)
    (_hQpsd : ∀ x : Fin n → ℚ, 0 ≤ Matrix.dotProduct x (Qm.mulVec x))
    (_hRsym : Rmᵀ = Rm)
    (_hRpd : ∀ x : Fin m → ℚ, x ≠ 0 → 0 < Matrix.dotProduct x (Rm.mulVec x))
    (hdet : (Rm + Bᵀ * P * B).det ≠ 0)
    (hP : IsDareSolution A B Qm Rm P) :
    gainK A B P Rm = matInv (Rm + Bᵀ * P * B) * (Bᵀ * P * A) ∧
    (Rm + Bᵀ * P * B) * gainK A B P Rm = Bᵀ * P * A ∧
    P = Qm + Aᵀ * P * A - Aᵀ * P * B * gainK A B P Rm := by
  have hassoc : gainK A B P Rm = matInv (Rm + Bᵀ * P * B) * (Bᵀ * P * A) := by
    unfold gainK
    rw [Matrix.mul_assoc, Matrix.mul_assoc, Matrix.mul_assoc, Matrix.mul_assoc]
  refine ⟨hassoc, ?_, ?_⟩
  · rw [hassoc, ← Matrix.mul_assoc, mul_matInv_self _ hdet, Matrix.one_mul]
  · have hterm : Aᵀ * P * B * gainK A B P Rm =
        Aᵀ * P * B * matInv (Rm + Bᵀ * P * B) * (Bᵀ * P * A) := by
      rw [hassoc]
      simp only [Matrix.mul_assoc]
    rw [hterm]
    exact hP.2

/-- Concrete 1-state/1-actuator instance for the C6 witness: `A = 0`, `B = 0`,
`Q = [[2]]`, `R = eye(1)`, for which the DARE solution is `P = Q`. -/
def dareA : Matrix (Fin 1) (Fin 1) ℚ := 0

/-- Transition input matrix of the witness instance. -/
def dareB : Matrix (Fin 1) (Fin 1) ℚ := 0

/-- State cost of the witness instance. -/
def dareQ : Matrix (Fin 1) (Fin 1) ℚ := Matrix.of ![![2]]

/-- DARE solution of the witness instance. -/
def dareP : Matrix (Fin 1) (Fin 1) ℚ := Matrix.of ![![2]]

/-- Witness for C6 at the concrete instance: all hypotheses hold and the two
gain equations follow by applying the theorem. -/
theorem riccati_gain_equations_witness :
    gainK dareA dareB dareP (R 1) = matInv (R 1 + dareBᵀ * dareP * dareB) *
      (dareBᵀ * dareP * dareA) ∧
    (R 1 + dareBᵀ * dareP * dareB) * gainK dareA dareB dareP (R 1) =
      dareBᵀ * dareP * dareA ∧
    dareP = dareQ + dareAᵀ * dareP * dareA -
      dareAᵀ * dareP * dareB * gainK dareA dareB dareP (R 1) :=
  riccati_gain_equations dareA dareB dareQ (R 1) dareP
    (by decide)
    (by
      intro x
      have : Matrix.dotProduct x (dareQ.mulVec x) = 2 * (x 0 * x 0) := by
        simp [Matrix.dotProduct, Matrix.mulVec, dareQ, Fin.sum_univ_one]
        ring
      rw [this]
      nlinarith [mul_self_nonneg (x 0)])
    (by decide)
    (by
      intro x hx
      have hx0 : x 0 ≠ 0 := by
        intro h0
        apply hx
        funext i
        fin_cases i
        exact h0
      have : Matrix.dotProduct x ((R 1).mulVec x) = x 0 * x 0 := by
        simp [Matrix.dotProduct, Matrix.mulVec, R, Fin.sum_univ_one]
      rw [this]
      exact mul_self_pos.mpr hx0)
    (by
      have hM : R 1 + dareBᵀ * dareP * dareB = 1 := by
        simp [R, dareB]
      rw [hM, Matrix.det_one]
      norm_num)
    (by
      refine ⟨by decide, ?_⟩
      have h : dareP = dareQ := rfl
      simp [dareA, dareB, h])

/-! ## Linearization (notebook cell: `A`, `B`, `epsilon`, `flg_centered`)

The cell allocates `A = np.zeros((2*nv, 2*nv))` and `B = np.zeros((2*nv, nu))`
(the shapes are carried here by the index types), sets `epsilon = 1e-6` and
`flg_centered = True`, and calls the oracle `mjd_transitionFD`; whatever the
oracle writes into `A` and `B` is consumed directly by the Riccati cell.
Entries are modelled as `Option ℚ`: `some q` is a finite value, `none` a
NaN/Inf produced by the finite-difference oracle. -/

/-- `epsilon = 1e-6`. -/
def epsilonFD : ℚ := 1/1000000

/-- `flg_centered = True`: centered, not one-sided, differencing. -/
def flg_centered : Bool := true

/-- The linearization step: invoke the transition-FD oracle at the chosen
step size and centering flag and hand its output on. -/
def linearize (nv nu : ℕ)
    (transFD : ℚ → Bool →
      Matrix (Fin (2*nv)) (Fin (2*nv)) (Option ℚ) × Matrix (Fin (2*nv)) (Fin nu) (Option ℚ)) :
    Matrix (Fin (2*nv)) (Fin (2*nv)) (Option ℚ) × Matrix (Fin (2*nv)) (Fin nu) (Option ℚ) :=
  transFD epsilonFD flg_centered

/-- Every entry of the matrix is finite (no NaN/Inf). -/
def MatFinite {I J : Type} (M : Matrix I J (Option ℚ)) : Prop :=
  ∀ i j, (M i j).isSome = true

/-- An oracle output whose `A` matrix is entirely non-finite. -/
def badAmat : Matrix (Fin 2) (Fin 2) (Option ℚ) := fun _ _ => none

/-- Finite `B` matrix for the non-finite-linearization counterexample. -/
def badBmat : Matrix (Fin 2) (Fin 1) (Option ℚ) := fun _ _ => some 0

/-- A transition-FD oracle (at `nv = 1`, `nu = 1`) returning a non-finite
`A`. -/
def badTransFD : ℚ → Bool →
    Matrix (Fin 2) (Fin 2) (Option ℚ) × Matrix (Fin 2) (Fin 1) (Option ℚ) :=
  fun _ _ => (badAmat, badBmat)

/-- **C7, counterexample.** When the finite-difference oracle returns a
non-finite `A`, the linearization step hands that very matrix on unchanged —
its return type has no error alternative, so no aborting error is reported,
contradicting the claimed NaN/Inf validation. -/
theorem linearize_passes_nonfinite_on :
    (linearize 1 1 badTransFD).1 = badAmat ∧ ¬ MatFinite (linearize 1 1 badTransFD).1 := by
  refine ⟨rfl, ?_⟩
  intro h
  have h00 := h 0 0
  simp [linearize, badTransFD, badAmat, Option.isSome] at h00

/-- **C7, amended.** The linearizer requests centered (not one-sided) finite
differencing with the fixed step `epsilon = 1e-6` into matrices allocated
with the contracted shapes `2nv × 2nv` and `2nv × nu` (enforced here by the
index types), and passes the oracle's output to the Riccati solver unchanged:
no finiteness validation is performed. -/
theorem linearize_centered_fixed_eps (nv nu : ℕ)
    (transFD : ℚ → Bool →
      Matrix (Fin (2*nv)) (Fin (2*nv)) (Option ℚ) × Matrix (Fin (2*nv)) (Fin nu) (Option ℚ)) :
    linearize nv nu transFD = transFD epsilonFD flg_centered ∧
    epsilonFD = 1/1000000 ∧ flg_centered = true :=
  ⟨rfl, rfl, rfl⟩

/-! ## Closed-loop control law (notebook cells 44 and 46)

Each tick computes `mj_differentiatePos(model, dq, 1, qpos0, data.qpos)` —
the oracle's manifold-aware tangent-space difference, modelled as the
abstract parameter `diffO` applied to the two positions, never a raw
component-wise subtraction — then `dx = np.hstack((dq, data.qvel)).T` and
`data.ctrl = ctrl0 - K @ dx`.  The disturbed variant (cell 46) additionally
executes `data.ctrl += CTRL_STD * perturb[step]`.  The trim velocity is zero:
`mj_resetData` zeroes `data.qvel` and only `qpos` is overwritten. -/

/-- `dx = np.hstack((dq, data.qvel)).T`. -/
def dxVec {nv : ℕ} (dq v : Fin nv → ℚ) : Fin (nv + nv) → ℚ := Fin.append dq v

/-- One tick of the LQR control law: `ctrl0 - K @ dx` with
`dq = diffO qpos0 qpos`. -/
def lqrCtrlTick {nq nv nu : ℕ}
    (diffO : (Fin nq → ℚ) → (Fin nq → ℚ) → Fin nv → ℚ)
    (qpos0 qpos : Fin nq → ℚ) (qvel : Fin nv → ℚ)
    (ctrl0v : Fin nu → ℚ) (Kmat : Matrix (Fin nu) (Fin (nv + nv)) ℚ) : Fin nu → ℚ :=
  fun j => ctrl0v j - Kmat.mulVec (dxVec (diffO qpos0 qpos) qvel) j

/-- One tick of the disturbed variant: the LQR law plus the scaled
precomputed disturbance sample of the current step. -/
def lqrCtrlTickDisturbed {nq nv nu : ℕ}
    (diffO : (Fin nq → ℚ) → (Fin nq → ℚ) → Fin nv → ℚ)
    (qpos0 qpos : Fin nq → ℚ) (qvel : Fin nv → ℚ)
    (ctrl0v : Fin nu → ℚ) (Kmat : Matrix (Fin nu) (Fin (nv + nv)) ℚ)
    (ctrlStd perturbStep : Fin nu → ℚ) : Fin nu → ℚ :=
  fun j => lqrCtrlTick diffO qpos0 qpos qvel ctrl0v Kmat j + ctrlStd j * perturbStep j

/-- The trim velocity `v0`: zero. -/
def v0 {nv : ℕ} : Fin nv → ℚ := 0

/-- **C8.** On every control tick the applied command is
`u = u0 - K · δx` (plus, in the disturbed variant, the precomputed
disturbance sample of the current step), where `δx` concatenates the
oracle's manifold-aware position difference `δq = diffO q0 q_current` with
the velocity deviation `v_current - v0` and the trim velocity `v0` is zero. -/
theorem control_law_manifold_aware {nq nv nu : ℕ}
    (diffO : (Fin nq → ℚ) → (Fin nq → ℚ) → Fin nv → ℚ)
    (qpos0 qpos : Fin nq → ℚ) (qvel : Fin nv → ℚ)
    (ctrl0v : Fin nu → ℚ) (Kmat : Matrix (Fin nu) (Fin (nv + nv)) ℚ)
    (ctrlStd perturbStep : Fin nu → ℚ) :
    lqrCtrlTick diffO qpos0 qpos qvel ctrl0v Kmat =
      (fun j => ctrl0v j -
        Kmat.mulVec (Fin.append (diffO qpos0 qpos) (fun i => qvel i - v0 i)) j) ∧
    lqrCtrlTickDisturbed diffO qpos0 qpos qvel ctrl0v Kmat ctrlStd perturbStep =
      (fun j => (ctrl0v j -
        Kmat.mulVec (Fin.append (diffO qpos0 qpos) (fun i => qvel i - v0 i)) j) +
        ctrlStd j * perturbStep j) := by
  have hv : (fun i => qvel i - v0 i) = qvel := by
    funext i
    simp [v0]
  refine ⟨?_, ?_⟩
  · funext j
    rw [hv]
    rfl
  · funext j
    rw [hv]
    rfl

/-! ## Disturbed-loop step indexing (notebook cell 46)

`nsteps = int(np.ceil(DURATION/model.opt.timestep))`, `perturb` has `nsteps`
rows, and the loop runs `while data.time < DURATION`, reading `perturb[step]`
and then incrementing `step`; each `mj_step` advances `data.time` by exactly
one fixed `timestep`.  Only the time/step-counter part of the loop state
matters for the bound, so the loop is modelled as the pair
(time, step counter) advanced once per iteration. -/

/-- `nsteps = int(np.ceil(DURATION/timestep))`. -/
def nstepsOf (D dt : ℚ) : ℕ := (Int.ceil (D / dt)).toNat

/-- Time and step counter at the entry of the k-th loop iteration: both start
at zero; each iteration increments `step` by one and `mj_step` advances the
time by one `timestep`. -/
def loopState (dt : ℚ) : ℕ → ℚ × ℕ
  | 0 => (0, 0)
  | k+1 => ((loopState dt k).1 + dt, (loopState dt k).2 + 1)

lemma loopState_eq (dt : ℚ) (k : ℕ) : loopState dt k = ((k : ℚ) * dt, k) := by
  induction k with
  | zero => simp [loopState]
  | succ k ih =>
      simp only [loopState, ih]
      rw [Prod.ext_iff]
      refine ⟨?_, rfl⟩
      push_cast
      ring

/-- **C9.** Every iteration of the disturbed loop indexes the disturbance
trace in bounds: if the k-th iteration executes (its entry time is below
`DURATION`), its step counter is below `nsteps = ceil(DURATION/timestep)`,
for any positive timestep. -/
theorem disturb_index_in_bounds (D dt : ℚ) (hdt : 0 < dt) (k : ℕ)
    (hrun : (loopState dt k).1 < D) :
    (loopState dt k).2 < nstepsOf D dt := by
  rw [loopState_eq] at hrun ⊢
  simp only at hrun ⊢
  have hql : (k : ℚ) < D / dt := (lt_div_iff₀ hdt).mpr hrun
  have hzl : (k : ℤ) < Int.ceil (D / dt) := by
    rw [Int.lt_ceil]
    push_cast
    exact hql
  exact Int.lt_toNat.mpr hzl

/-- Witness for C9 at the humanoid's values `DURATION = 12`,
`timestep = 0.002` and the first iteration. -/
theorem disturb_index_in_bounds_witness :
    (loopState (1/500) 0).2 < nstepsOf 12 (1/500) :=
  disturb_index_in_bounds 12 (1/500) (by norm_num) 0 (by simp [loopState])

/-! ## Disturbance generation determinism (notebook cell 46)

`np.random.seed(1)` overwrites the ambient global generator state with the
state determined by the constant 1 before `np.random.randn(nsteps, nu)` is
drawn.  The generator is external: it is modelled by an abstract state type
`S`, a seeding map `seedFn : ℕ → S` and a draw map `gauss` giving the matrix
of standard-normal draws produced from a state.  The Gaussian smoothing
kernel is built from `np.exp` (an external real-valued routine), so its
normalized values enter as a parameter; the convolution `np.convolve(·, ·,
mode='same')` and the per-channel scaling are embedded below. -/

/-- The raw `nsteps × nu` draw: `np.random.seed(1)` discards the ambient
state, so the draw depends only on the seeding map and the constant 1. -/
def perturbRaw {S : Type} (seedFn : ℕ → S) (gauss : S → ℕ → ℕ → ℚ)
    (_ambient : S) : ℕ → ℕ → ℚ :=
  gauss (seedFn 1)

/-- `np.convolve(x, k, mode='same')` on a length-`n` signal with a length-`w`
kernel and zero padding: entry `t` of the central slice of the full
convolution. -/
def convolveSame (n w : ℕ) (k x : ℕ → ℚ) (t : ℕ) : ℚ :=
  ∑ j ∈ Finset.range w,
    if j ≤ t + (w - 1) / 2 ∧ t + (w - 1) / 2 - j < n
    then k j * x (t + (w - 1) / 2 - j) else 0

/-- The smoothed, per-channel-scaled disturbance trace:
`perturb[:, i] = np.convolve(perturb[:, i], kernel, mode='same')` followed by
the applied sample `CTRL_STD * perturb[step]`. -/
def disturbanceTrace {S : Type} (seedFn : ℕ → S) (gauss : S → ℕ → ℕ → ℚ)
    (ambient : S) (kernel : ℕ → ℚ) (nsteps w : ℕ) (ctrlStd : ℕ → ℚ)
    (t i : ℕ) : ℚ :=
  ctrlStd i * convolveSame nsteps w kernel (fun s => perturbRaw seedFn gauss ambient s i) t

/-- The disturbed closed-loop run as a function of the plant oracle: `p0` is
the reset state with `qpos = qpos0`, `ctrlOf` reads the state and produces
the LQR command `ctrl0 - K @ dx`, and each iteration steps the plant with
the command plus the disturbance sample of the current step. -/
def runDisturbed {Phys : Type} (stepF : Phys → (ℕ → ℚ) → Phys)
    (ctrlOf : Phys → ℕ → ℚ) (p0 : Phys) (pert : ℕ → ℕ → ℚ) : ℕ → Phys
  | 0 => p0
  | k+1 =>
      let p := runDisturbed stepF ctrlOf p0 pert k
      stepF p (fun i => ctrlOf p i + pert k i)

/-- **C10.** The disturbance pipeline is deterministic despite the stochastic
description: since the generator is reseeded with the fixed constant 1
before drawing, two executions that differ only in the ambient RNG state
produce the identical raw draw, the identical smoothed/scaled trace, and the
identical disturbed closed-loop run. -/
theorem disturbance_deterministic {S Phys : Type} (seedFn : ℕ → S)
    (gauss : S → ℕ → ℕ → ℚ) (ambient ambient2 : S) (kernel : ℕ → ℚ)
    (nsteps w : ℕ) (ctrlStd : ℕ → ℚ) (stepF : Phys → (ℕ → ℚ) → Phys)
    (ctrlOf : Phys → ℕ → ℚ) (p0 : Phys) (k : ℕ) :
    perturbRaw seedFn gauss ambient = perturbRaw seedFn gauss ambient2 ∧
    disturbanceTrace seedFn gauss ambient kernel nsteps w ctrlStd =
      disturbanceTrace seedFn gauss ambient2 kernel nsteps w ctrlStd ∧
    runDisturbed stepF ctrlOf p0
        (disturbanceTrace seedFn gauss ambient kernel nsteps w ctrlStd) k =
      runDisturbed stepF ctrlOf p0
        (disturbanceTrace seedFn gauss ambient2 kernel nsteps w ctrlStd) k :=
  ⟨rfl, rfl, rfl⟩

end LQR
